import Mathlib

/-!
Verification of the Gedeon cinema locator against its source
(src/cinemas.py and src/showtimes.py).

Modelling conventions of the shallow embedding:

* Python floats are modelled as rationals (Rat).  The helper
  _haversine_km is built from transcendental functions (sin, cos, atan2,
  sqrt), which have no computable rational embedding, so every theorem
  about find_cinemas is stated for an arbitrary distance function
  hv : Rat -> Rat -> Rat -> Rat -> Rat standing for _haversine_km;
  concrete evaluations instantiate hv with explicit stand-ins.
* Values that Python float(.) may fail to convert are modelled by
  PyScalar; tryFloat returns none exactly when float(.) raises
  TypeError or ValueError.
* The network is modelled by a list of per-target outcomes
  (AttemptOutcome), one entry per Overpass mirror, in order.
* Unicode library functions used by _normalize_text
  (str.lower, unicodedata.normalize NFD, category Mn, str.split
  whitespace classes) are tables of the Unicode standard; they are
  modelled by an abstract UnicodeModel record, with the facts about the
  ASCII range that the proofs need taken as hypotheses, and uASCII as a
  concrete instantiation that is faithful on the ASCII range.
* datetime.fromisoformat followed by strftime("%H:%M") in
  _format_showtime_list is likewise a library function; it is modelled
  by an abstract parseHM : String -> Option String where none models
  the parse raising an exception.
-/

/-! Text normalisation (showtimes.py, _normalize_text). -/

/-- Abstract model of the Unicode tables used by _normalize_text:
per-character lowercasing, canonical decomposition (NFD), the
combining-mark test (category Mn) and the whitespace test used by
str.strip and str.split. -/
structure UnicodeModel where
  toLower : Char → List Char
  nfd : Char → List Char
  isMn : Char → Bool
  isSpace : Char → Bool

/-- The literal allowed alphabet of _normalize_text:
"abcdefghijklmnopqrstuvwxyz0123456789 ". -/
def allowedChars : List Char := "abcdefghijklmnopqrstuvwxyz0123456789 ".toList

/-- Python str.strip(): drop leading and trailing whitespace. -/
def pyStrip (isSp : Char → Bool) (l : List Char) : List Char :=
  ((l.dropWhile isSp).reverse.dropWhile isSp).reverse

/-- Worker for Python str.split() with no separator: the accumulator
holds the current word reversed. -/
def pyWordsAux (isSp : Char → Bool) : List Char → List Char → List (List Char)
  | [], cur => if cur.isEmpty then [] else [cur.reverse]
  | c :: rest, cur =>
    if isSp c then
      if cur.isEmpty then pyWordsAux isSp rest []
      else cur.reverse :: pyWordsAux isSp rest []
    else pyWordsAux isSp rest (c :: cur)

/-- Python str.split() with no separator: maximal runs of
non-whitespace characters, empty runs discarded. -/
def pyWords (isSp : Char → Bool) (l : List Char) : List (List Char) :=
  pyWordsAux isSp l []

/-- Python " ".join(words). -/
def joinWords : List (List Char) → List Char
  | [] => []
  | [w] => w
  | w :: ws => w ++ ' ' :: joinWords ws

/-- Translation of _normalize_text (showtimes.py lines 42-52) on
character lists: strip, lower, NFD, drop combining marks, replace
characters outside the allowed alphabet by a space, collapse
whitespace. -/
def normalizeChars (u : UnicodeModel) (l : List Char) : List Char :=
  if l = [] then []
  else
    let s1 := pyStrip u.isSpace l
    let s2 := s1.flatMap u.toLower
    let s3 := s2.flatMap u.nfd
    let s4 := s3.filter (fun c => !u.isMn c)
    let s5 := s4.map (fun c => if allowedChars.contains c then c else ' ')
    joinWords (pyWords u.isSpace s5)

/-- String-level wrapper of normalizeChars; this is the model of
_normalize_text. -/
def normalize_text (u : UnicodeModel) (s : String) : String :=
  String.mk (normalizeChars u s.data)

/-- No two adjacent spaces anywhere in the list. -/
def singleSpaced : List Char → Bool
  | [] => true
  | [_] => true
  | a :: b :: rest => (!(a == ' ' && b == ' ')) && singleSpaced (b :: rest)

/-- ASCII lowering, faithful to Python str.lower on the ASCII range. -/
def asciiLower (c : Char) : List Char :=
  if 'A' ≤ c ∧ c ≤ 'Z' then [Char.ofNat (c.toNat + 32)] else [c]

/-- ASCII whitespace test, faithful to the Python whitespace class on
the ASCII range. -/
def asciiIsSpace (c : Char) : Bool :=
  c == ' ' || c == '\t' || c == '\n' || c == '\r'

/-- Concrete Unicode model that is faithful to the Python library
functions on the ASCII range (NFD and the Mn test are the identity and
constant false there). -/
def uASCII : UnicodeModel :=
  { toLower := asciiLower
    nfd := fun c => [c]
    isMn := fun _ => false
    isSpace := asciiIsSpace }

/-! Cinema search (cinemas.py). -/

/-- A scalar as received from upstream JSON: either a value float(.)
converts, or one on which float(.) raises. -/
inductive PyScalar where
  | num (q : Rat)
  | nonNumeric (s : String)
deriving DecidableEq

/-- Python float(x): some value on success, none when TypeError or
ValueError is raised. -/
def tryFloat : PyScalar → Option Rat
  | .num q => some q
  | .nonNumeric _ => none

/-- A raw Overpass element as consumed by find_cinemas: id, type,
direct coordinates (nodes), centre coordinates (ways and relations) and
the free-form tag map. -/
structure OsmElement where
  id : Option Int
  typ : Option String
  lat : Option PyScalar
  lon : Option PyScalar
  centerLat : Option PyScalar
  centerLon : Option PyScalar
  tags : List (String × String)
deriving DecidableEq

/-- Outcome of one POST against one Overpass mirror
(cinemas.py lines 48-68): a 2xx answer with parsed elements, a 504
gateway timeout, or a requests.RequestException (network error or the
raise_for_status of any other non-2xx status). -/
inductive AttemptOutcome where
  | ok (elements : List OsmElement)
  | gateway504
  | requestError (msg : String)
deriving DecidableEq

/-- An outcome on which the loop of _query_overpass records a failure
and moves to the next mirror. -/
def isFailure : AttemptOutcome → Bool
  | .ok _ => false
  | _ => true

/-- Translation of _query_overpass (cinemas.py lines 44-71) over the
per-mirror outcome list: try mirrors in order, return the first
successful body immediately; if every mirror fails return the dict
with an empty elements list.  The first component counts how many
mirrors were actually contacted. -/
def query_overpass : List AttemptOutcome → Nat × List OsmElement
  | [] => (0, [])
  | AttemptOutcome.ok els :: _ => (1, els)
  | _ :: rest =>
    let r := query_overpass rest
    (r.1 + 1, r.2)

/-- MAX_RADIUS_KM = 100.0 (cinemas.py line 11). -/
def MAX_RADIUS_KM : Rat := 100

/-- The radius adjustment of find_cinemas (cinemas.py lines 96-99):
a non-positive radius becomes 1.0, a radius above MAX_RADIUS_KM becomes
MAX_RADIUS_KM. -/
def clamp_radius (radius_km : Rat) : Rat :=
  let r1 := if radius_km ≤ 0 then 1 else radius_km
  if MAX_RADIUS_KM < r1 then MAX_RADIUS_KM else r1

/-- Round-half-to-even to an integer, as Python round does on exact
ties. -/
def roundHalfEven (q : Rat) : Int :=
  let n := ⌊q⌋
  let frac := q - n
  if frac < 1/2 then n
  else if 1/2 < frac then n + 1
  else if n % 2 = 0 then n else n + 1

/-- Python round(x, 1). -/
def pyRound1 (q : Rat) : Rat := (roundHalfEven (q * 10) : Rat) / 10

/-- Python tags.get(key): first matching key of the tag map. -/
def tagLookup (tags : List (String × String)) (k : String) : Option String :=
  (tags.find? (fun kv => kv.1 == k)).map (fun kv => kv.2)

/-- A tag value that is truthy in Python: present and non-empty. -/
def truthyTag (tags : List (String × String)) (k : String) : Option String :=
  match tagLookup tags k with
  | some v => if v = "" then none else some v
  | none => none

/-- Python " ".join(l).strip() uses the standard whitespace class. -/
def stripStr (s : String) : String :=
  String.mk (pyStrip asciiIsSpace s.data)

/-- One entry of the list returned by find_cinemas (the dict built at
cinemas.py lines 152-161). -/
structure Cinema where
  id : Option Int
  name : String
  address : Option String
  city : Option String
  latitude : Rat
  longitude : Rat
  distanceKm : Rat
  osmTags : List (String × String)
deriving DecidableEq

/-- Comparison key of the final sort: the distanceKm field. -/
def cinLE (a b : Cinema) : Prop := a.distanceKm ≤ b.distanceKm

instance : DecidableRel cinLE :=
  fun a b => inferInstanceAs (Decidable (a.distanceKm ≤ b.distanceKm))

instance : IsTotal Cinema cinLE :=
  ⟨fun a b => le_total a.distanceKm b.distanceKm⟩

instance : IsTrans Cinema cinLE :=
  ⟨fun _ _ _ h1 h2 => le_trans h1 h2⟩

/-- Processing of a single raw element inside the loop of find_cinemas
(cinemas.py lines 112-161), everything except the seen-id check: name
required, coordinates from the element or its centre, float conversion,
the authoritative distance re-check, address assembly.  Returns none
when the element is skipped. -/
def element_record (hv : Rat → Rat → Rat → Rat → Rat)
    (center_lat center_lon radius : Rat) (el : OsmElement) : Option Cinema :=
  match tagLookup el.tags "name" with
  | none => none
  | some name =>
    if name = "" then none
    else
      let rawCoords : Option PyScalar × Option PyScalar :=
        if el.typ = some "node" then (el.lat, el.lon) else (el.centerLat, el.centerLon)
      match rawCoords.1, rawCoords.2 with
      | some rlat, some rlon =>
        match tryFloat rlat, tryFloat rlon with
        | some lat, some lon =>
          let dist := hv center_lat center_lon lat lon
          if radius < dist then none
          else
            let city :=
              match truthyTag el.tags "addr:city" with
              | some v => some v
              | none =>
                match truthyTag el.tags "addr:town" with
                | some v => some v
                | none => truthyTag el.tags "addr:village"
            let parts :=
              (match truthyTag el.tags "addr:housenumber" with
               | some h => [h]
               | none => []) ++
              (match truthyTag el.tags "addr:street" with
               | some st => [st]
               | none => [])
            let address0 := stripStr (String.intercalate " " parts)
            let address1 :=
              match city with
              | some ct => (if address0 = "" then "" else address0 ++ ", ") ++ ct
              | none => address0
            some { id := el.id, name := name,
                   address := if address1 = "" then none else some address1,
                   city := city, latitude := lat, longitude := lon,
                   distanceKm := pyRound1 dist, osmTags := el.tags }
        | _, _ => none
      | _, _ => none

/-- The accumulation loop of find_cinemas (cinemas.py lines 107-162):
elements in order, an element whose id is already in the seen set is
skipped, ids enter the seen set only when a record is appended. -/
def build_cinemas (hv : Rat → Rat → Rat → Rat → Rat)
    (center_lat center_lon radius : Rat) :
    List OsmElement → List (Option Int) → List Cinema
  | [], _ => []
  | el :: rest, seen =>
    if el.id ∈ seen then build_cinemas hv center_lat center_lon radius rest seen
    else
      match element_record hv center_lat center_lon radius el with
      | none => build_cinemas hv center_lat center_lon radius rest seen
      | some c => c :: build_cinemas hv center_lat center_lon radius rest (el.id :: seen)

/-- Translation of find_cinemas (cinemas.py lines 74-171): float
conversion of the centre (ValueError on failure, before any network
traffic), radius adjustment, the failover query, the per-element loop,
the stable ascending sort on distanceKm and the max_results cut.  The
first component is the number of Overpass mirrors contacted; the
max_results argument is truthy-checked like the Python int
(none and 0 are falsy). -/
def find_cinemas (hv : Rat → Rat → Rat → Rat → Rat)
    (center_lat center_lon : PyScalar) (radius_km : Rat)
    (max_results : Option Int) (env : List AttemptOutcome) :
    Nat × Except String (List Cinema) :=
  match tryFloat center_lat, tryFloat center_lon with
  | some clat, some clon =>
    let r := clamp_radius radius_km
    let q := query_overpass env
    let cs := build_cinemas hv clat clon r q.2 []
    let sorted := List.insertionSort cinLE cs
    let final :=
      match max_results with
      | some n => if 0 < n then sorted.take n.toNat else sorted
      | none => sorted
    (q.1, Except.ok final)
  | _, _ => (0, Except.error "Coordonnées invalides pour find_cinemas()")

/-- Distance stand-in that returns 0 for every pair of points. -/
def hvZero : Rat → Rat → Rat → Rat → Rat := fun _ _ _ _ => 0

/-- Distance stand-in that returns 0.7 km for every pair of points. -/
def hvSmall : Rat → Rat → Rat → Rat → Rat := fun _ _ _ _ => 7/10

/-! Allocine matching (showtimes.py). -/

/-- One candidate from the per-department Allocine catalogue as used by
_find_best_allocine_cinema: its display name and its Allocine id. -/
structure AlloCinema where
  name : Option String
  id : Option String
deriving DecidableEq

/-- Python substring containment (a in b for strings). -/
def isInfixChars (needle hay : List Char) : Bool :=
  hay.tails.any (fun t => needle.isPrefixOf t)

/-- The cumulative score of the loop body of _find_best_allocine_cinema
(showtimes.py lines 339-348) for a candidate that is not an exact
match: +3 for substring containment in either direction, plus the
cardinality of the intersection of the whitespace token sets when both
are non-empty. -/
def match_score (u : UnicodeModel) (tn cn : String) : Int :=
  let base : Int := if isInfixChars tn.data cn.data || isInfixChars cn.data tn.data then 3 else 0
  let tt := (pyWords u.isSpace tn.data).dedup
  let ct := (pyWords u.isSpace cn.data).dedup
  if tt.isEmpty || ct.isEmpty then base
  else base + ((tt.filter (fun w => ct.contains w)).length : Int)

/-- The score a candidate receives in the scan, none when the candidate
is skipped for lacking a truthy name (showtimes.py lines 330-332). -/
def cand_score (u : UnicodeModel) (tn : String) (c : AlloCinema) : Option Int :=
  match c.name with
  | none => none
  | some nm => if nm = "" then none else some (match_score u tn (normalize_text u nm))

/-- The candidate scan of _find_best_allocine_cinema (showtimes.py
lines 326-357): exact normalized match returns immediately, otherwise
the best strictly improving score is tracked, and at the end the best
candidate is returned only when its score reaches 2. -/
def find_best_go (u : UnicodeModel) (tn : String) :
    List AlloCinema → Option AlloCinema → Int → Option AlloCinema
  | [], best, bs =>
    match best with
    | some b => if 2 ≤ bs then some b else none
    | none => none
  | c :: rest, best, bs =>
    match c.name with
    | none => find_best_go u tn rest best bs
    | some cname =>
      if cname = "" then find_best_go u tn rest best bs
      else
        let cn := normalize_text u cname
        if cn = tn then some c
        else
          let sc := match_score u tn cn
          if bs < sc then find_best_go u tn rest (some c) sc
          else find_best_go u tn rest best bs

/-- Translation of _find_best_allocine_cinema (showtimes.py lines
317-357).  The candidate list stands for the result of
_get_cinemas_for_dept(dept_id); an empty or empty-normalizing target
returns none before the scan. -/
def find_best_allocine_cinema (u : UnicodeModel)
    (candidates : List AlloCinema) (target_name : String) : Option AlloCinema :=
  if candidates.isEmpty then none
  else
    let tn := normalize_text u target_name
    if tn = "" then none
    else find_best_go u tn candidates none (-1)

/-! Showtime formatting (showtimes.py, _format_showtime_list). -/

/-- The loop of _format_showtime_list (showtimes.py lines 367-372):
parseHM models datetime.fromisoformat on s.replace("Z", "+00:00")
followed by strftime("%H:%M"); none models the parse raising, upon
which the element is skipped. -/
def format_showtime_go (parseHM : String → Option String) : List String → List String
  | [] => []
  | s :: rest =>
    match parseHM s with
    | some t => t :: format_showtime_go parseHM rest
    | none => format_showtime_go parseHM rest

/-- Translation of _format_showtime_list (showtimes.py lines 364-373);
the raw_list or [] guard turns an absent list into an empty one. -/
def format_showtime_list (parseHM : String → Option String)
    (raw_list : Option (List String)) : List String :=
  format_showtime_go parseHM (raw_list.getD [])

/-- A concrete stand-in parser that recognises one ISO timestamp, as
datetime.fromisoformat would, and fails on everything else. -/
def parseHMDemo : String → Option String :=
  fun s => if s = "2024-05-01T14:30:00" then some "14:30" else none

/-! Enrichment (showtimes.py, enrich_cinemas_with_showtimes). -/

/-- The fields of a cinema dict that enrich_cinemas_with_showtimes
reads or writes; alpha is the type of one formatted showtime entry.
Absent showtimes and showtimesDate model the keys not being present in
the dict. -/
structure EnrichCinema (α : Type) where
  name : Option String
  latitude : Option Rat
  longitude : Option Rat
  showtimes : Option (List α) := none
  showtimesDate : Option String := none
deriving DecidableEq

/-- The loop of enrich_cinemas_with_showtimes (showtimes.py lines
462-477): break once count reaches max_cinemas, skip entries lacking a
truthy name or coordinates, call the lookup, and only on a non-empty
result attach the showtimes and the date and increment count.  Returns
the updated list, the final count and the number of lookup calls
made. -/
def enrich_go {α : Type} (lookup : String → Rat → Rat → String → List α)
    (d : String) (maxc : Int) :
    List (EnrichCinema α) → Nat → List (EnrichCinema α) × Nat × Nat
  | [], count => ([], count, 0)
  | cin :: rest, count =>
    if maxc ≤ (count : Int) then (cin :: rest, count, 0)
    else
      match cin.name, cin.latitude, cin.longitude with
      | some nm, some la, some lo =>
        if nm = "" then
          let r := enrich_go lookup d maxc rest count
          (cin :: r.1, r.2.1, r.2.2)
        else
          let sts := lookup nm la lo d
          if sts.isEmpty then
            let r := enrich_go lookup d maxc rest count
            (cin :: r.1, r.2.1, r.2.2 + 1)
          else
            let r := enrich_go lookup d maxc rest (count + 1)
            ({ cin with showtimes := some sts, showtimesDate := some d } :: r.1,
             r.2.1, r.2.2 + 1)
      | _, _, _ =>
        let r := enrich_go lookup d maxc rest count
        (cin :: r.1, r.2.1, r.2.2)

/-- Translation of enrich_cinemas_with_showtimes (showtimes.py lines
449-480).  The lookup argument stands for get_showtimes_for_cinema,
which returns an empty list on every failure path; the date string is
taken as already resolved. -/
def enrich_cinemas_with_showtimes {α : Type}
    (lookup : String → Rat → Rat → String → List α) (d : String) (maxc : Int)
    (cinemas : List (EnrichCinema α)) : List (EnrichCinema α) × Nat × Nat :=
  if cinemas.isEmpty then (cinemas, 0, 0)
  else enrich_go lookup d maxc cinemas 0

/-- Relation between an input cinema and its slot in the output of the
enrichment: either untouched, or enriched with the non-empty lookup
result and the date. -/
def enrichRel {α : Type} (lookup : String → Rat → Rat → String → List α)
    (d : String) (a b : EnrichCinema α) : Prop :=
  b = a ∨
    ∃ nm la lo, a.name = some nm ∧ nm ≠ "" ∧ a.latitude = some la ∧
      a.longitude = some lo ∧ lookup nm la lo d ≠ [] ∧
      b = { a with showtimes := some (lookup nm la lo d), showtimesDate := some d }

/-- Number of positions at which two lists of equal length differ. -/
def countDiff {β : Type} [DecidableEq β] : List β → List β → Nat
  | a :: as, b :: bs => (if a = b then 0 else 1) + countDiff as bs
  | _, _ => 0

/-- The normalized name a candidate exposes to the scan, none when the
scan skips it for lacking a truthy name; the scan returns a candidate
early exactly when this equals some normalized target. -/
def cand_norm (u : UnicodeModel) (c : AlloCinema) : Option String :=
  match c.name with
  | none => none
  | some nm => if nm = "" then none else some (normalize_text u nm)

/-! Concrete inputs used by counterexamples and witnesses. -/

/-- A named node 0.7 km away under hvSmall. -/
def elNear : OsmElement :=
  { id := some 5, typ := some "node", lat := some (.num 0), lon := some (.num 0),
    centerLat := none, centerLon := none, tags := [("name", "N")] }

/-- An OSM node with id 1. -/
def nodeA : OsmElement :=
  { id := some 1, typ := some "node", lat := some (.num 10), lon := some (.num 20),
    centerLat := none, centerLon := none, tags := [("name", "Cinema A")] }

/-- An OSM way with the same numeric id 1 but a different element
type. -/
def wayB : OsmElement :=
  { id := some 1, typ := some "way", lat := none, lon := none,
    centerLat := some (.num 10), centerLon := some (.num 20),
    tags := [("name", "Cinema B")] }

/-- The record find_cinemas builds from nodeA under hvZero. -/
def cinNodeA : Cinema :=
  { id := some 1, name := "Cinema A", address := none, city := none,
    latitude := 10, longitude := 20, distanceKm := 0,
    osmTags := [("name", "Cinema A")] }

/-- Distance stand-in that returns the latitude of the second point, so
each element controls its own distance. -/
def hvByLat : Rat → Rat → Rat → Rat → Rat := fun _ _ lat _ => lat

/-- Element at 5 km under hvByLat. -/
def elFar5 : OsmElement :=
  { id := some 1, typ := some "node", lat := some (.num 5), lon := some (.num 0),
    centerLat := none, centerLon := none, tags := [("name", "A")] }

/-- Element at 2 km under hvByLat. -/
def elNear2 : OsmElement :=
  { id := some 2, typ := some "node", lat := some (.num 2), lon := some (.num 0),
    centerLat := none, centerLon := none, tags := [("name", "B")] }

/-- The record find_cinemas builds from elNear2 under hvByLat. -/
def cinNear2 : Cinema :=
  { id := some 2, name := "B", address := none, city := none,
    latitude := 2, longitude := 0, distanceKm := 2,
    osmTags := [("name", "B")] }

/-- Candidate whose plain name abc scores 3 against an
empty-normalizing target. -/
def cAbc : AlloCinema := { name := some "abc", id := some "C1" }

/-- Candidate whose name normalizes to the empty string. -/
def cQuestion : AlloCinema := { name := some "?", id := some "Q" }

/-- Low-scoring candidate. -/
def cGamma : AlloCinema := { name := some "gamma", id := some "G" }

/-- Highest-scoring candidate of the threshold witness. -/
def cAlphaBetaGamma : AlloCinema := { name := some "Alpha Beta Gamma", id := some "ABG" }

/-- Runner-up candidate of the threshold witness. -/
def cBeta : AlloCinema := { name := some "beta", id := some "B" }

/-- Candidate whose normalized name equals the normalized target of the
exact-match witness. -/
def cExact : AlloCinema := { name := some " Gaumont  OPERA ", id := some "P0" }

/-- Later candidate that would score highly but must be ignored once an
exact match exists. -/
def cLate : AlloCinema := { name := some "gaumont opera cinema", id := some "P1" }

/-- A lookup on which every showtime request comes back empty, as
get_showtimes_for_cinema does on any failure path. -/
def lookupEmpty : String → Rat → Rat → String → List Unit := fun _ _ _ _ => []

/-- Three well-formed cinemas for the enrichment cap demonstration. -/
def demoCinemas : List (EnrichCinema Unit) :=
  [{ name := some "a", latitude := some 0, longitude := some 0 },
   { name := some "b", latitude := some 0, longitude := some 0 },
   { name := some "c", latitude := some 0, longitude := some 0 }]

/-! Theorems.  Shared helper lemmas come first, then one theorem per
claim with its witness or counterexample. -/

theorem format_showtime_go_eq_filterMap (p : String → Option String) :
    ∀ l : List String, format_showtime_go p l = l.filterMap p := by
  intro l
  induction l with
  | nil => rfl
  | cons s rest ih =>
    cases h : p s <;> simp [format_showtime_go, h, List.filterMap_cons, ih]

/-- Claim C1 (amended): find_cinemas rejects the centre with a
ValueError before any network traffic exactly when Python float()
fails on one of the coordinates; the attempt counter 0 records that no
Overpass mirror was contacted.  Numeric out-of-range coordinates are
not rejected (see the counterexample). -/
theorem find_cinemas_rejects_only_nonnumeric
    (hv : Rat → Rat → Rat → Rat → Rat) (la lo : PyScalar) (r : Rat)
    (mr : Option Int) (env : List AttemptOutcome)
    (h : tryFloat la = none ∨ tryFloat lo = none) :
    find_cinemas hv la lo r mr env =
      (0, Except.error "Coordonnées invalides pour find_cinemas()") := by
  rcases hla : tryFloat la with _ | q <;> rcases hlo : tryFloat lo with _ | q' <;>
    simp [find_cinemas, hla, hlo] <;> simp [hla, hlo] at h

/-- Witness for claim C1: a non-numeric latitude is rejected with zero
mirror contacts. -/
theorem find_cinemas_rejects_only_nonnumeric_witness :
    find_cinemas hvZero (PyScalar.nonNumeric "abc") (PyScalar.num 0) 30 (some 50)
      [AttemptOutcome.ok []] =
      (0, Except.error "Coordonnées invalides pour find_cinemas()") :=
  find_cinemas_rejects_only_nonnumeric hvZero _ _ 30 (some 50) _ (Or.inl rfl)

/-- Counterexample to claim C1 as stated: latitude 200 is outside
[-90, 90], yet find_cinemas raises no validation error and contacts one
Overpass mirror (first component 1), so the out-of-range centre is not
rejected before a network call. -/
theorem find_cinemas_out_of_range_latitude_not_rejected :
    find_cinemas hvZero (PyScalar.num 200) (PyScalar.num 0) 30 (some 50)
      [AttemptOutcome.ok []] = (1, Except.ok []) := by
  rfl

/-- Claim C3 (amended): the effective radius always lies in
(0, MAX_RADIUS_KM]; a non-positive radius is replaced by 1.0 and a
radius above 100 km is clamped to 100, but a positive radius below the
1.0 km floor is used as-is, not clamped up. -/
theorem clamp_radius_spec (r : Rat) :
    (0 < clamp_radius r ∧ clamp_radius r ≤ MAX_RADIUS_KM) ∧
    (r ≤ 0 → clamp_radius r = 1) ∧
    (0 < r → r ≤ MAX_RADIUS_KM → clamp_radius r = r) ∧
    (MAX_RADIUS_KM < r → clamp_radius r = MAX_RADIUS_KM) := by
  simp only [clamp_radius, MAX_RADIUS_KM]
  split_ifs with h1 h2 h3 <;>
    refine ⟨⟨by linarith, by linarith⟩, fun h => by linarith, fun h h' => by linarith,
      fun h => by linarith⟩

/-- Witness for claim C3: the clamp at 200, at 50 and at a non-positive
radius. -/
theorem clamp_radius_spec_witness :
    clamp_radius 200 = MAX_RADIUS_KM ∧ clamp_radius 50 = 50 ∧ clamp_radius (-3) = 1 :=
  ⟨(clamp_radius_spec 200).2.2.2 (by norm_num [MAX_RADIUS_KM]),
   (clamp_radius_spec 50).2.2.1 (by norm_num) (by norm_num [MAX_RADIUS_KM]),
   (clamp_radius_spec (-3)).2.1 (by norm_num)⟩

/-- Counterexample to claim C3 as stated: the positive radius 0.5 km is
below the 1.0 km floor but is not clamped up, and find_cinemas run with
radius 0.5 drops an element 0.7 km away, which a 1.0 km effective
radius would have kept, so the results do reflect a radius outside
[1.0, 100.0]. -/
theorem clamp_radius_small_positive_unclamped :
    clamp_radius (1/2) = 1/2 ∧ clamp_radius (1/2) < 1 ∧
      (find_cinemas hvSmall (PyScalar.num 0) (PyScalar.num 0) (1/2) (some 50)
        [AttemptOutcome.ok [elNear]]).2 = Except.ok [] := by
  refine ⟨by norm_num [clamp_radius, MAX_RADIUS_KM], by norm_num [clamp_radius, MAX_RADIUS_KM], ?_⟩
  with_unfolding_all rfl

/-- Claim C5 (amended): _format_showtime_list maps each entry through
the ISO parse-and-reformat and keeps exactly the successfully parsed
ones, in order; an unparsable timestamp is dropped from the output, not
passed through. -/
theorem format_showtime_list_semantics (p : String → Option String) (l : List String) :
    format_showtime_list p (some l) = l.filterMap p ∧
      (format_showtime_list p (some l)).length ≤ l.length := by
  have h := format_showtime_go_eq_filterMap p l
  refine ⟨h, ?_⟩
  simp only [format_showtime_list, Option.getD_some, h]
  exact l.length_filterMap_le p

/-- Counterexample to claim C5 as stated: with a parser recognising the
one genuine ISO timestamp, the unparsable entry garbage is absent from
the output instead of being passed through unchanged. -/
theorem format_showtime_list_drops_unparsable :
    format_showtime_list parseHMDemo (some ["2024-05-01T14:30:00", "garbage"]) = ["14:30"] ∧
      "garbage" ∉ format_showtime_list parseHMDemo (some ["2024-05-01T14:30:00", "garbage"]) := by
  constructor
  · rfl
  · decide

theorem query_overpass_all_fail :
    ∀ env : List AttemptOutcome, (∀ o ∈ env, isFailure o = true) →
      query_overpass env = (env.length, []) := by
  intro env
  induction env with
  | nil => intro _; rfl
  | cons o rest ih =>
    intro h
    have ho := h o (List.mem_cons_self o rest)
    have hrest := fun x hx => h x (List.mem_cons_of_mem o hx)
    cases o with
    | ok els => simp [isFailure] at ho
    | gateway504 => simp [query_overpass, ih hrest]
    | requestError m => simp [query_overpass, ih hrest]

theorem query_overpass_first_success :
    ∀ (pre : List AttemptOutcome) (els : List OsmElement) (post : List AttemptOutcome),
      (∀ o ∈ pre, isFailure o = true) →
      query_overpass (pre ++ AttemptOutcome.ok els :: post) = (pre.length + 1, els) := by
  intro pre els post
  induction pre with
  | nil => intro _; rfl
  | cons o rest ih =>
    intro h
    have ho := h o (List.mem_cons_self o rest)
    have hrest := fun x hx => h x (List.mem_cons_of_mem o hx)
    cases o with
    | ok els2 => simp [isFailure] at ho
    | gateway504 => simp [query_overpass, ih hrest]
    | requestError m => simp [query_overpass, ih hrest]

/-- Claim C2: the failover executor walks the mirror list in order with
one attempt per mirror; any failure (network error, non-2xx status or
504) advances to the next mirror; the first success is returned with no
later mirror contacted (attempt count is the successful position); and
when every mirror fails, find_cinemas returns an empty cinema list
instead of raising. -/
theorem query_overpass_failover :
    (∀ (pre : List AttemptOutcome) (els : List OsmElement) (post : List AttemptOutcome),
        (∀ o ∈ pre, isFailure o = true) →
        query_overpass (pre ++ AttemptOutcome.ok els :: post) = (pre.length + 1, els)) ∧
    (∀ env : List AttemptOutcome, (∀ o ∈ env, isFailure o = true) →
        query_overpass env = (env.length, []) ∧
        ∀ (hv : Rat → Rat → Rat → Rat → Rat) (la lo : PyScalar) (r : Rat)
          (mr : Option Int) (clat clon : Rat),
          tryFloat la = some clat → tryFloat lo = some clon →
          find_cinemas hv la lo r mr env = (env.length, Except.ok [])) := by
  refine ⟨query_overpass_first_success, fun env henv => ⟨query_overpass_all_fail env henv, ?_⟩⟩
  intro hv la lo r mr clat clon hla hlo
  simp only [find_cinemas, hla, hlo, query_overpass_all_fail env henv, build_cinemas,
    List.insertionSort]
  cases mr with
  | none => rfl
  | some n =>
    by_cases hn : 0 < n <;> simp [hn, List.take_nil]

/-- Witness for claim C2: two failures then a success give three
attempts and the third body; two failures alone give two attempts and
an empty cinema list from find_cinemas. -/
theorem query_overpass_failover_witness :
    query_overpass [AttemptOutcome.gateway504, AttemptOutcome.requestError "boom",
        AttemptOutcome.ok [elNear], AttemptOutcome.gateway504] = (3, [elNear]) ∧
      query_overpass [AttemptOutcome.gateway504, AttemptOutcome.requestError "boom"] = (2, []) ∧
      find_cinemas hvZero (PyScalar.num 0) (PyScalar.num 0) 30 (some 50)
        [AttemptOutcome.gateway504, AttemptOutcome.requestError "boom"] =
        (2, Except.ok []) := by
  refine ⟨?_, ?_, ?_⟩
  · exact query_overpass_failover.1
      [AttemptOutcome.gateway504, AttemptOutcome.requestError "boom"] [elNear]
      [AttemptOutcome.gateway504] (by decide)
  · exact (query_overpass_failover.2
      [AttemptOutcome.gateway504, AttemptOutcome.requestError "boom"] (by decide)).1
  · exact (query_overpass_failover.2
      [AttemptOutcome.gateway504, AttemptOutcome.requestError "boom"] (by decide)).2
      hvZero _ _ 30 (some 50) 0 0 rfl rfl

/-- Claim C4 (amended): find_cinemas deduplicates raw records by the
numeric external id alone, not by the pair (sourceType, externalId):
whenever a second element carries the same id as an element already
turned into a record, the second is dropped whatever its element type,
and the first occurrence is the one kept. -/
theorem build_cinemas_dedup_by_id (hv : Rat → Rat → Rat → Rat → Rat)
    (clat clon r : Rat) (el1 el2 : OsmElement) (c1 : Cinema)
    (h1 : element_record hv clat clon r el1 = some c1) (hid : el2.id = el1.id) :
    build_cinemas hv clat clon r [el1, el2] [] = [c1] := by
  simp [build_cinemas, h1, hid]

/-- Witness for claim C4: the node and the way sharing id 1 collapse to
the single record built from the node. -/
theorem build_cinemas_dedup_by_id_witness :
    build_cinemas hvZero 0 0 30 [nodeA, wayB] [] = [cinNodeA] :=
  build_cinemas_dedup_by_id hvZero 0 0 30 nodeA wayB cinNodeA
    (by with_unfolding_all rfl) rfl

/-- Counterexample to claim C4 as stated: nodeA is an OSM node and wayB
an OSM way with the same numeric id, so under identity
(sourceType, externalId) both should appear, yet find_cinemas returns
only the record of the node. -/
theorem find_cinemas_conflates_node_and_way :
    nodeA.id = wayB.id ∧ nodeA.typ ≠ wayB.typ ∧
      (find_cinemas hvZero (PyScalar.num 0) (PyScalar.num 0) 30 (some 50)
        [AttemptOutcome.ok [nodeA, wayB]]).2 = Except.ok [cinNodeA] := by
  refine ⟨rfl, by decide, ?_⟩
  with_unfolding_all rfl

theorem element_record_id (hv : Rat → Rat → Rat → Rat → Rat)
    (clat clon r : Rat) (el : OsmElement) (c : Cinema)
    (h : element_record hv clat clon r el = some c) : c.id = el.id := by
  unfold element_record at h
  repeat' first
    | split at h
    | dsimp only at h
  all_goals cases h
  all_goals rfl

theorem build_cinemas_id_invariant (hv : Rat → Rat → Rat → Rat → Rat)
    (clat clon r : Rat) :
    ∀ (els : List OsmElement) (seen : List (Option Int)),
      (∀ c ∈ build_cinemas hv clat clon r els seen, c.id ∉ seen) ∧
      List.Pairwise (fun a b : Cinema => a.id ≠ b.id)
        (build_cinemas hv clat clon r els seen) := by
  intro els
  induction els with
  | nil => intro seen; simp [build_cinemas]
  | cons el rest ih =>
    intro seen
    by_cases hs : el.id ∈ seen
    · simpa [build_cinemas, hs] using ih seen
    · cases hrec : element_record hv clat clon r el with
      | none => simpa [build_cinemas, hs, hrec] using ih seen
      | some c =>
        have hcid := element_record_id hv clat clon r el c hrec
        have ihtail := ih (el.id :: seen)
        have hbuild : build_cinemas hv clat clon r (el :: rest) seen =
            c :: build_cinemas hv clat clon r rest (el.id :: seen) := by
          simp [build_cinemas, hs, hrec]
        rw [hbuild]
        constructor
        · intro x hx
          rcases List.mem_cons.mp hx with rfl | hx
          · rw [hcid]; exact hs
          · have hni := ihtail.1 x hx
            exact fun hxs => hni (List.mem_cons_of_mem _ hxs)
        · refine List.Pairwise.cons ?_ ihtail.2
          intro x hx
          have hni := ihtail.1 x hx
          rw [hcid]
          intro heq
          exact hni (heq ▸ List.mem_cons_self _ _)

/-- Claim C8: every successful find_cinemas result is sorted
non-decreasing in the distanceKm field, never contains two entries with
the same external id (hence never two entries with the same
(sourceType, externalId) identity), and is cut to max_results entries
when max_results is a positive number. -/
theorem find_cinemas_sorted_dedup_capped (hv : Rat → Rat → Rat → Rat → Rat)
    (la lo : PyScalar) (r : Rat) (mr : Option Int) (env : List AttemptOutcome)
    (out : List Cinema)
    (h : (find_cinemas hv la lo r mr env).2 = Except.ok out) :
    List.Sorted cinLE out ∧
      List.Pairwise (fun a b : Cinema => a.id ≠ b.id) out ∧
      ∀ n : Int, mr = some n → 0 < n → out.length ≤ n.toNat := by
  cases hla : tryFloat la with
  | none => unfold find_cinemas at h; rw [hla] at h; simp at h
  | some clat =>
    cases hlo : tryFloat lo with
    | none => unfold find_cinemas at h; rw [hla, hlo] at h; simp at h
    | some clon =>
      unfold find_cinemas at h
      rw [hla, hlo] at h
      simp only [Except.ok.injEq] at h
      set cs := build_cinemas hv clat clon (clamp_radius r) (query_overpass env).2 []
        with hcs
      have hsorted : List.Sorted cinLE (List.insertionSort cinLE cs) :=
        List.sorted_insertionSort cinLE cs
      have hpair0 : List.Pairwise (fun a b : Cinema => a.id ≠ b.id) cs :=
        (build_cinemas_id_invariant hv clat clon (clamp_radius r)
          (query_overpass env).2 []).2
      have hpair : List.Pairwise (fun a b : Cinema => a.id ≠ b.id)
          (List.insertionSort cinLE cs) :=
        ((List.perm_insertionSort cinLE cs).pairwise_iff
          (fun hxy => Ne.symm hxy)).mpr hpair0
      cases mr with
      | none =>
        subst h
        exact ⟨hsorted, hpair, fun n hn => by cases hn⟩
      | some n =>
        by_cases hn : 0 < n
        · simp only [if_pos hn] at h
          subst h
          refine ⟨List.Pairwise.sublist (List.take_sublist _ _) hsorted,
            List.Pairwise.sublist (List.take_sublist _ _) hpair, ?_⟩
          intro m hm _
          cases hm
          rw [List.length_take]
          exact min_le_left _ _
        · simp only [if_neg hn] at h
          subst h
          refine ⟨hsorted, hpair, ?_⟩
          intro m hm hpos
          cases hm
          exact absurd hpos hn

/-- Witness for claim C8: two elements arriving unsorted at 5 km and
2 km with max_results 1 give the singleton nearest record, sorted, with
distinct ids and within the cap. -/
theorem find_cinemas_sorted_dedup_capped_witness :
    List.Sorted cinLE [cinNear2] ∧
      List.Pairwise (fun a b : Cinema => a.id ≠ b.id) [cinNear2] ∧
      ([cinNear2] : List Cinema).length ≤ (1 : Int).toNat := by
  have h := find_cinemas_sorted_dedup_capped hvByLat (PyScalar.num 43) (PyScalar.num 1)
    30 (some 1) [AttemptOutcome.ok [elFar5, elNear2]] [cinNear2]
    (by with_unfolding_all rfl)
  exact ⟨h.1, h.2.1, h.2.2 1 rfl (by decide)⟩

theorem match_score_nonneg (u : UnicodeModel) (tn cn : String) :
    0 ≤ match_score u tn cn := by
  simp only [match_score]
  split_ifs <;> omega

theorem find_best_go_keep (u : UnicodeModel) (tn : String) (c : AlloCinema) (s : Int) :
    ∀ post : List AlloCinema,
      (∀ x ∈ post, cand_norm u x ≠ some tn) →
      (∀ x ∈ post, ∀ s', cand_score u tn x = some s' → s' ≤ s) →
      find_best_go u tn post (some c) s = if 2 ≤ s then some c else none := by
  intro post
  induction post with
  | nil => intro _ _; simp [find_best_go]
  | cons x post ih =>
    intro hne hle
    have hxne := hne x (List.mem_cons_self x post)
    have hxle := hle x (List.mem_cons_self x post)
    have hne' := fun y hy => hne y (List.mem_cons_of_mem x hy)
    have hle' := fun y hy => hle y (List.mem_cons_of_mem x hy)
    cases hname : x.name with
    | none =>
      rw [show find_best_go u tn (x :: post) (some c) s =
        find_best_go u tn post (some c) s by simp [find_best_go, hname]]
      exact ih hne' hle'
    | some nm =>
      by_cases hnm : nm = ""
      · rw [show find_best_go u tn (x :: post) (some c) s =
          find_best_go u tn post (some c) s by simp [find_best_go, hname, hnm]]
        exact ih hne' hle'
      · have hcn : normalize_text u nm ≠ tn := by
          intro hEq; apply hxne; simp [cand_norm, hname, hnm, hEq]
        have hsc : match_score u tn (normalize_text u nm) ≤ s := by
          apply hxle; simp [cand_score, hname, hnm]
        have hlt : ¬ s < match_score u tn (normalize_text u nm) := not_lt.mpr hsc
        rw [show find_best_go u tn (x :: post) (some c) s =
          find_best_go u tn post (some c) s by simp [find_best_go, hname, hnm, hcn, hlt]]
        exact ih hne' hle'

theorem find_best_go_skip (u : UnicodeModel) (tn : String) :
    ∀ (pre rest : List AlloCinema) (b0 : Option AlloCinema) (s0 : Int),
      (∀ x ∈ pre, cand_norm u x ≠ some tn) →
      ∃ b1 s1, find_best_go u tn (pre ++ rest) b0 s0 = find_best_go u tn rest b1 s1 := by
  intro pre
  induction pre with
  | nil => intro rest b0 s0 _; exact ⟨b0, s0, rfl⟩
  | cons x pre ih =>
    intro rest b0 s0 hne
    have hxne := hne x (List.mem_cons_self x pre)
    have hne' := fun y hy => hne y (List.mem_cons_of_mem x hy)
    cases hname : x.name with
    | none =>
      rw [show find_best_go u tn ((x :: pre) ++ rest) b0 s0 =
        find_best_go u tn (pre ++ rest) b0 s0 by simp [find_best_go, hname]]
      exact ih rest b0 s0 hne'
    | some nm =>
      by_cases hnm : nm = ""
      · rw [show find_best_go u tn ((x :: pre) ++ rest) b0 s0 =
          find_best_go u tn (pre ++ rest) b0 s0 by simp [find_best_go, hname, hnm]]
        exact ih rest b0 s0 hne'
      · have hcn : normalize_text u nm ≠ tn := by
          intro hEq; apply hxne; simp [cand_norm, hname, hnm, hEq]
        by_cases hupd : s0 < match_score u tn (normalize_text u nm)
        · rw [show find_best_go u tn ((x :: pre) ++ rest) b0 s0 =
            find_best_go u tn (pre ++ rest) (some x)
              (match_score u tn (normalize_text u nm)) by
            simp [find_best_go, hname, hnm, hcn, hupd]]
          exact ih rest (some x) _ hne'
        · rw [show find_best_go u tn ((x :: pre) ++ rest) b0 s0 =
            find_best_go u tn (pre ++ rest) b0 s0 by
            simp [find_best_go, hname, hnm, hcn, hupd]]
          exact ih rest b0 s0 hne'

theorem find_best_go_progress (u : UnicodeModel) (tn : String) (s : Int) :
    ∀ (pre rest : List AlloCinema) (b0 : Option AlloCinema) (s0 : Int),
      s0 < s →
      (∀ x ∈ pre, cand_norm u x ≠ some tn) →
      (∀ x ∈ pre, ∀ s', cand_score u tn x = some s' → s' < s) →
      ∃ b1 s1, s1 < s ∧
        find_best_go u tn (pre ++ rest) b0 s0 = find_best_go u tn rest b1 s1 := by
  intro pre
  induction pre with
  | nil => intro rest b0 s0 hs0 _ _; exact ⟨b0, s0, hs0, rfl⟩
  | cons x pre ih =>
    intro rest b0 s0 hs0 hne hlt
    have hxne := hne x (List.mem_cons_self x pre)
    have hxlt := hlt x (List.mem_cons_self x pre)
    have hne' := fun y hy => hne y (List.mem_cons_of_mem x hy)
    have hlt' := fun y hy => hlt y (List.mem_cons_of_mem x hy)
    cases hname : x.name with
    | none =>
      rw [show find_best_go u tn ((x :: pre) ++ rest) b0 s0 =
        find_best_go u tn (pre ++ rest) b0 s0 by simp [find_best_go, hname]]
      exact ih rest b0 s0 hs0 hne' hlt'
    | some nm =>
      by_cases hnm : nm = ""
      · rw [show find_best_go u tn ((x :: pre) ++ rest) b0 s0 =
          find_best_go u tn (pre ++ rest) b0 s0 by simp [find_best_go, hname, hnm]]
        exact ih rest b0 s0 hs0 hne' hlt'
      · have hcn : normalize_text u nm ≠ tn := by
          intro hEq; apply hxne; simp [cand_norm, hname, hnm, hEq]
        have hxs : match_score u tn (normalize_text u nm) < s := by
          apply hxlt; simp [cand_score, hname, hnm]
        by_cases hupd : s0 < match_score u tn (normalize_text u nm)
        · rw [show find_best_go u tn ((x :: pre) ++ rest) b0 s0 =
            find_best_go u tn (pre ++ rest) (some x)
              (match_score u tn (normalize_text u nm)) by
            simp [find_best_go, hname, hnm, hcn, hupd]]
          exact ih rest (some x) _ hxs hne' hlt'
        · rw [show find_best_go u tn ((x :: pre) ++ rest) b0 s0 =
            find_best_go u tn (pre ++ rest) b0 s0 by
            simp [find_best_go, hname, hnm, hcn, hupd]]
          exact ih rest b0 s0 hs0 hne' hlt'

/-- Claim C6 (amended): provided the target name normalizes to a
non-empty label, when no candidate is an exact normalized match the
scan accepts the first candidate attaining the maximal cumulative score
(substring containment either way +3, plus token-set overlap) exactly
when that score is at least 2, and returns none when it is below 2;
earlier candidates score strictly less (ties keep the first maximal
candidate) and later ones at most the maximum. -/
theorem find_best_threshold_and_first_max (u : UnicodeModel) (target : String)
    (pre post : List AlloCinema) (c : AlloCinema) (s : Int)
    (htn : normalize_text u target ≠ "")
    (hcs : cand_score u (normalize_text u target) c = some s)
    (hnoexact : ∀ x ∈ pre ++ c :: post, cand_norm u x ≠ some (normalize_text u target))
    (hpre : ∀ x ∈ pre, ∀ s', cand_score u (normalize_text u target) x = some s' → s' < s)
    (hpost : ∀ x ∈ post, ∀ s', cand_score u (normalize_text u target) x = some s' → s' ≤ s) :
    find_best_allocine_cinema u (pre ++ c :: post) target =
      if 2 ≤ s then some c else none := by
  obtain ⟨nm, hname, hnm, hs⟩ : ∃ nm, c.name = some nm ∧ nm ≠ "" ∧
      s = match_score u (normalize_text u target) (normalize_text u nm) := by
    cases hname : c.name with
    | none => simp [cand_score, hname] at hcs
    | some nm =>
      by_cases hnm : nm = ""
      · simp [cand_score, hname, hnm] at hcs
      · simp only [cand_score, hname, if_neg hnm, Option.some.injEq] at hcs
        exact ⟨nm, rfl, hnm, hcs.symm⟩
  have hsnn : 0 ≤ s := hs ▸ match_score_nonneg u _ _
  have hne_pre : ∀ x ∈ pre, cand_norm u x ≠ some (normalize_text u target) :=
    fun x hx => hnoexact x (List.mem_append_left _ hx)
  have hc_ne : cand_norm u c ≠ some (normalize_text u target) :=
    hnoexact c (List.mem_append_right _ (List.mem_cons_self _ _))
  have hcn_ne : normalize_text u nm ≠ normalize_text u target := by
    intro hEq; apply hc_ne; simp [cand_norm, hname, hnm, hEq]
  have hpost_ne : ∀ x ∈ post, cand_norm u x ≠ some (normalize_text u target) :=
    fun x hx => hnoexact x (List.mem_append_right _ (List.mem_cons_of_mem _ hx))
  have hEmp : ((pre ++ c :: post).isEmpty = true) = False := by simp
  simp only [find_best_allocine_cinema, hEmp, if_false, if_neg htn]
  obtain ⟨b1, s1, hs1, hstep⟩ := find_best_go_progress u (normalize_text u target) s
    pre (c :: post) none (-1) (by omega) hne_pre hpre
  rw [hstep]
  have hstep2 : find_best_go u (normalize_text u target) (c :: post) b1 s1 =
      find_best_go u (normalize_text u target) post (some c) s := by
    simp only [find_best_go, hname, if_neg hnm, if_neg hcn_ne, ← hs, if_pos hs1]
  rw [hstep2]
  exact find_best_go_keep u (normalize_text u target) c s post hpost_ne hpost

set_option maxHeartbeats 2000000 in
/-- Witness for claim C6: against target alpha beta, the candidates
score 0, 5 and 4 in list order, no exact match exists, and the middle
candidate is accepted (score 5 is at least 2). -/
theorem find_best_threshold_and_first_max_witness :
    find_best_allocine_cinema uASCII [cGamma, cAlphaBetaGamma, cBeta] "alpha beta" =
      some cAlphaBetaGamma := by
  have h := find_best_threshold_and_first_max uASCII "alpha beta" [cGamma] [cBeta]
    cAlphaBetaGamma 5 (by decide) (by decide) (by decide)
    (by
      intro x hx s' hs'
      simp only [List.mem_singleton] at hx
      subst hx
      have hc : cand_score uASCII (normalize_text uASCII "alpha beta") cGamma = some 0 := by
        decide
      rw [hc] at hs'
      cases hs'
      decide)
    (by
      intro x hx s' hs'
      simp only [List.mem_singleton] at hx
      subst hx
      have hc : cand_score uASCII (normalize_text uASCII "alpha beta") cBeta = some 4 := by
        decide
      rw [hc] at hs'
      cases hs'
      decide)
  rw [if_pos (by decide : (2:Int) ≤ 5)] at h
  exact h

/-- Counterexample to claim C6 as stated: with target "!" the
normalized target is empty; the candidate abc is not an exact match and
its cumulative score is 3 (the empty string is a substring of abc), so
the claim demands it be accepted, yet the scan returns none because an
empty-normalizing target aborts before scoring. -/
theorem find_best_empty_target_score3_rejected :
    normalize_text uASCII "!" = "" ∧
      cand_norm uASCII cAbc ≠ some (normalize_text uASCII "!") ∧
      match_score uASCII (normalize_text uASCII "!") (normalize_text uASCII "abc") = 3 ∧
      find_best_allocine_cinema uASCII [cAbc] "!" = none := by
  refine ⟨rfl, by decide, by decide, rfl⟩

/-- Claim C7 (amended): provided the target name normalizes to a
non-empty label, the first candidate whose normalized name equals the
normalized target is returned immediately, whatever any other
candidate, before or after it, would score. -/
theorem find_best_exact_match_first (u : UnicodeModel) (target : String)
    (pre post : List AlloCinema) (c : AlloCinema)
    (htn : normalize_text u target ≠ "")
    (hc : cand_norm u c = some (normalize_text u target))
    (hpre : ∀ x ∈ pre, cand_norm u x ≠ some (normalize_text u target)) :
    find_best_allocine_cinema u (pre ++ c :: post) target = some c := by
  obtain ⟨nm, hname, hnm, hEq⟩ : ∃ nm, c.name = some nm ∧ nm ≠ "" ∧
      normalize_text u nm = normalize_text u target := by
    cases hname : c.name with
    | none => simp [cand_norm, hname] at hc
    | some nm =>
      by_cases hnm : nm = ""
      · simp [cand_norm, hname, hnm] at hc
      · simp only [cand_norm, hname, if_neg hnm, Option.some.injEq] at hc
        exact ⟨nm, rfl, hnm, hc⟩
  have hEmp : ((pre ++ c :: post).isEmpty = true) = False := by simp
  simp only [find_best_allocine_cinema, hEmp, if_false, if_neg htn]
  obtain ⟨b1, s1, hstep⟩ := find_best_go_skip u (normalize_text u target)
    pre (c :: post) none (-1) hpre
  rw [hstep]
  simp [find_best_go, hname, hnm, hEq]

set_option maxHeartbeats 2000000 in
/-- Witness for claim C7: the second candidate normalizes to the same
label as the target (case, extra spaces stripped) and is returned even
though a later candidate would also score highly. -/
theorem find_best_exact_match_first_witness :
    find_best_allocine_cinema uASCII [cGamma, cExact, cLate] "Gaumont Opera" =
      some cExact :=
  find_best_exact_match_first uASCII "Gaumont Opera" [cGamma] [cLate] cExact
    (by decide) (by decide) (by decide)

/-- Counterexample to claim C7 as stated: target "!" and the candidate
named "?" both normalize to the empty string, so the candidate's
normalized name equals the normalized target, yet the function returns
none rather than that candidate. -/
theorem find_best_no_exact_on_empty_norm :
    normalize_text uASCII "?" = normalize_text uASCII "!" ∧
      find_best_allocine_cinema uASCII [cQuestion] "!" = none :=
  ⟨rfl, rfl⟩

theorem countDiff_self {β : Type} [DecidableEq β] : ∀ l : List β, countDiff l l = 0 := by
  intro l
  induction l with
  | nil => rfl
  | cons a l ih => simp [countDiff, ih]

theorem enrich_go_invariant {α : Type} [DecidableEq α]
    (lookup : String → Rat → Rat → String → List α) (d : String) (maxc : Int) :
    ∀ (cs : List (EnrichCinema α)) (count : Nat),
      List.Forall₂ (enrichRel lookup d) cs (enrich_go lookup d maxc cs count).1 ∧
      count ≤ (enrich_go lookup d maxc cs count).2.1 ∧
      countDiff cs (enrich_go lookup d maxc cs count).1 + count ≤
        (enrich_go lookup d maxc cs count).2.1 ∧
      (enrich_go lookup d maxc cs count).2.1 ≤ max count maxc.toNat := by
  intro cs
  induction cs with
  | nil =>
    intro count
    exact ⟨List.Forall₂.nil, le_refl _, by simp [enrich_go, countDiff], by simp [enrich_go]⟩
  | cons cin rest ih =>
    intro count
    by_cases hbrk : maxc ≤ (count : Int)
    · have hred : enrich_go lookup d maxc (cin :: rest) count = (cin :: rest, count, 0) := by
        simp [enrich_go, hbrk]
      rw [hred]
      dsimp only
      refine ⟨List.forall₂_same.mpr (fun x _ => Or.inl rfl), le_refl _, ?_, le_max_left _ _⟩
      rw [countDiff_self]
      omega
    · have hskip : ∀ att1 : Nat,
          enrich_go lookup d maxc (cin :: rest) count =
            (cin :: (enrich_go lookup d maxc rest count).1,
             (enrich_go lookup d maxc rest count).2.1,
             (enrich_go lookup d maxc rest count).2.2 + att1) →
          List.Forall₂ (enrichRel lookup d) (cin :: rest)
            (enrich_go lookup d maxc (cin :: rest) count).1 ∧
          count ≤ (enrich_go lookup d maxc (cin :: rest) count).2.1 ∧
          countDiff (cin :: rest) (enrich_go lookup d maxc (cin :: rest) count).1 + count ≤
            (enrich_go lookup d maxc (cin :: rest) count).2.1 ∧
          (enrich_go lookup d maxc (cin :: rest) count).2.1 ≤ max count maxc.toNat := by
        intro att1 hred
        rw [hred]
        dsimp only
        obtain ⟨ih1, ih2, ih3, ih4⟩ := ih count
        refine ⟨List.Forall₂.cons (Or.inl rfl) ih1, ih2, ?_, ih4⟩
        simp only [countDiff]
        split_ifs with hdd
        · omega
        · exact absurd trivial hdd
      rcases hn : cin.name with _ | nm
      · exact hskip 0 (by simp [enrich_go, hbrk, hn])
      · rcases hla : cin.latitude with _ | la
        · exact hskip 0 (by simp [enrich_go, hbrk, hn, hla])
        · rcases hlo : cin.longitude with _ | lo
          · exact hskip 0 (by simp [enrich_go, hbrk, hn, hla, hlo])
          · by_cases hnm : nm = ""
            · exact hskip 0 (by simp [enrich_go, hbrk, hn, hla, hlo, hnm])
            · by_cases hsts : (lookup nm la lo d).isEmpty
              · exact hskip 1 (by simp [enrich_go, hbrk, hn, hla, hlo, hnm, hsts])
              · have hred : enrich_go lookup d maxc (cin :: rest) count =
                    (({ cin with showtimes := some (lookup nm la lo d), showtimesDate := some d } : EnrichCinema α) ::
                       (enrich_go lookup d maxc rest (count + 1)).1,
                     (enrich_go lookup d maxc rest (count + 1)).2.1,
                     (enrich_go lookup d maxc rest (count + 1)).2.2 + 1) := by
                  simp [enrich_go, hbrk, hn, hla, hlo, hnm, hsts]
                rw [hred]
                dsimp only
                obtain ⟨ih1, ih2, ih3, ih4⟩ := ih (count + 1)
                have hne : lookup nm la lo d ≠ [] := by
                  intro hcon
                  rw [hcon] at hsts
                  exact hsts rfl
                refine ⟨List.Forall₂.cons
                  (Or.inr ⟨nm, la, lo, hn, hnm, hla, hlo, hne, rfl⟩) ih1, ?_, ?_, ?_⟩
                · omega
                · simp only [countDiff]
                  split_ifs <;> omega
                · have hcnt : (count : Int) < maxc := lt_of_not_ge hbrk
                  omega

/-- Claim C9: enrich_cinemas_with_showtimes counts toward the
max_cinemas cap only cinemas whose showtime lookup came back non-empty:
every output entry is either its input entry untouched (no showtimes or
showtimesDate attached) or its input entry with the non-empty lookup
result and date attached; at most max_cinemas entries are changed; and
the lookup may be attempted on more cinemas than the cap, shown by
three all-empty lookups under cap 1 (three lookup attempts, zero
entries counted, every entry returned unchanged). -/
theorem enrich_respects_cap_and_skips :
    (∀ (α : Type) (inst : DecidableEq α)
       (lookup : String → Rat → Rat → String → List α) (d : String) (maxc : Int)
       (cs : List (EnrichCinema α)),
       List.Forall₂ (enrichRel lookup d) cs
         (enrich_cinemas_with_showtimes lookup d maxc cs).1 ∧
       countDiff cs (enrich_cinemas_with_showtimes lookup d maxc cs).1 ≤ maxc.toNat) ∧
    enrich_cinemas_with_showtimes lookupEmpty "2024-05-01" 1 demoCinemas =
      (demoCinemas, 0, 3) := by
  constructor
  · intro α inst lookup d maxc cs
    by_cases hemp : cs.isEmpty
    · have hcs : cs = [] := List.isEmpty_iff.mp hemp
      subst hcs
      exact ⟨by simp [enrich_cinemas_with_showtimes], by simp [enrich_cinemas_with_showtimes, countDiff]⟩
    · have hred : enrich_cinemas_with_showtimes lookup d maxc cs =
          enrich_go lookup d maxc cs 0 := by
        simp [enrich_cinemas_with_showtimes, hemp]
      rw [hred]
      obtain ⟨ih1, _, ih3, ih4⟩ := enrich_go_invariant lookup d maxc cs 0
      exact ⟨ih1, by omega⟩
  · rfl

theorem pyWordsAux_wf (isSp : Char → Bool) :
    ∀ (l cur : List Char), (∀ c ∈ cur, isSp c = false) →
      ∀ w ∈ pyWordsAux isSp l cur, w ≠ [] ∧ ∀ c ∈ w, isSp c = false ∧ (c ∈ l ∨ c ∈ cur) := by
  intro l
  induction l with
  | nil =>
    intro cur hcur w hw
    cases cur with
    | nil => simp [pyWordsAux] at hw
    | cons a cur' =>
      have hw' : w = (a :: cur').reverse := by simpa [pyWordsAux] using hw
      subst hw'
      refine ⟨by simp, ?_⟩
      intro c hcm
      rw [List.mem_reverse] at hcm
      exact ⟨hcur c hcm, Or.inr hcm⟩
  | cons b l ih =>
    intro cur hcur w hw
    by_cases hb : isSp b
    · cases cur with
      | nil =>
        have hw' : w ∈ pyWordsAux isSp l [] := by simpa [pyWordsAux, hb] using hw
        obtain ⟨h1, h2⟩ := ih [] (by simp) w hw'
        exact ⟨h1, fun c hcm => ⟨(h2 c hcm).1,
          Or.inl (List.mem_cons_of_mem b
            ((h2 c hcm).2.resolve_right (List.not_mem_nil c)))⟩⟩
      | cons a cur' =>
        have hw' : w = (a :: cur').reverse ∨ w ∈ pyWordsAux isSp l [] := by
          simpa [pyWordsAux, hb] using hw
        rcases hw' with rfl | hw'
        · refine ⟨by simp, ?_⟩
          intro c hcm
          rw [List.mem_reverse] at hcm
          exact ⟨hcur c hcm, Or.inr hcm⟩
        · obtain ⟨h1, h2⟩ := ih [] (by simp) w hw'
          exact ⟨h1, fun c hcm => ⟨(h2 c hcm).1,
            Or.inl (List.mem_cons_of_mem b
              ((h2 c hcm).2.resolve_right (List.not_mem_nil c)))⟩⟩
    · have hw' : w ∈ pyWordsAux isSp l (b :: cur) := by simpa [pyWordsAux, hb] using hw
      have hcur' : ∀ c ∈ b :: cur, isSp c = false := by
        intro c hcm
        rcases List.mem_cons.mp hcm with rfl | hcm
        · simpa using hb
        · exact hcur c hcm
      obtain ⟨h1, h2⟩ := ih (b :: cur) hcur' w hw'
      refine ⟨h1, fun c hcm => ⟨(h2 c hcm).1, ?_⟩⟩
      rcases (h2 c hcm).2 with hcl | hcc
      · exact Or.inl (List.mem_cons_of_mem b hcl)
      · rcases List.mem_cons.mp hcc with rfl | hcc
        · exact Or.inl (List.mem_cons_self _ _)
        · exact Or.inr hcc

theorem pyWords_wf (isSp : Char → Bool) (l : List Char) :
    ∀ w ∈ pyWords isSp l, w ≠ [] ∧ ∀ c ∈ w, isSp c = false ∧ c ∈ l := by
  intro w hw
  obtain ⟨h1, h2⟩ := pyWordsAux_wf isSp l [] (by simp) w hw
  exact ⟨h1, fun c hcm => ⟨(h2 c hcm).1, (h2 c hcm).2.resolve_right (List.not_mem_nil c)⟩⟩

theorem pyWordsAux_nonspace (isSp : Char → Bool) :
    ∀ (w rest cur : List Char), (∀ c ∈ w, isSp c = false) →
      pyWordsAux isSp (w ++ rest) cur = pyWordsAux isSp rest (w.reverse ++ cur) := by
  intro w
  induction w with
  | nil => intro rest cur _; simp
  | cons b w ih =>
    intro rest cur hns
    have hb : isSp b = false := hns b (List.mem_cons_self _ _)
    have hstep : pyWordsAux isSp ((b :: w) ++ rest) cur =
        pyWordsAux isSp (w ++ rest) (b :: cur) := by
      simp [pyWordsAux, hb]
    rw [hstep, ih rest (b :: cur) (fun c hcm => hns c (List.mem_cons_of_mem b hcm))]
    simp

theorem joinWords_ne_nil (w : List Char) (ws : List (List Char)) (hw : w ≠ []) :
    joinWords (w :: ws) ≠ [] := by
  cases ws with
  | nil => simpa [joinWords] using hw
  | cons v ws => simp [joinWords, hw]

theorem pyWords_roundtrip (isSp : Char → Bool) (hsp : isSp ' ' = true) :
    ∀ ws : List (List Char), (∀ w ∈ ws, w ≠ [] ∧ ∀ c ∈ w, isSp c = false) →
      pyWords isSp (joinWords ws) = ws := by
  intro ws
  induction ws with
  | nil => intro _; rfl
  | cons w ws ih =>
    intro h
    have hw := h w (List.mem_cons_self _ _)
    have hws := fun v hv => h v (List.mem_cons_of_mem w hv)
    cases ws with
    | nil =>
      show pyWordsAux isSp (joinWords [w]) [] = [w]
      have : joinWords [w] = w ++ [] := by simp [joinWords]
      rw [this, pyWordsAux_nonspace isSp w [] [] hw.2]
      have hrev : w.reverse.isEmpty = false := by
        simp [List.isEmpty_iff, hw.1]
      simp [pyWordsAux, hrev]
    | cons v ws' =>
      show pyWordsAux isSp (joinWords (w :: v :: ws')) [] = w :: v :: ws'
      have hj : joinWords (w :: v :: ws') = w ++ ' ' :: joinWords (v :: ws') := by
        simp [joinWords]
      rw [hj, pyWordsAux_nonspace isSp w (' ' :: joinWords (v :: ws')) [] hw.2]
      have hrev : (w.reverse ++ []).isEmpty = false := by
        simp [List.isEmpty_iff, hw.1]
      have hstep : pyWordsAux isSp (' ' :: joinWords (v :: ws')) (w.reverse ++ []) =
          (w.reverse ++ []).reverse :: pyWordsAux isSp (joinWords (v :: ws')) [] := by
        simp [pyWordsAux, hsp, List.isEmpty_iff, hw.1]
      rw [hstep]
      have := ih hws
      simp only [pyWords] at this
      rw [this]
      simp

theorem joinWords_chars :
    ∀ ws : List (List Char), ∀ c ∈ joinWords ws, c = ' ' ∨ ∃ w ∈ ws, c ∈ w := by
  intro ws
  induction ws with
  | nil => intro c hc; simp [joinWords] at hc
  | cons w ws ih =>
    intro c hc
    cases ws with
    | nil =>
      simp only [joinWords] at hc
      exact Or.inr ⟨w, List.mem_cons_self _ _, hc⟩
    | cons v ws' =>
      have : c ∈ w ++ ' ' :: joinWords (v :: ws') := by simpa [joinWords] using hc
      rcases List.mem_append.mp this with hcw | hctail
      · exact Or.inr ⟨w, List.mem_cons_self _ _, hcw⟩
      · rcases List.mem_cons.mp hctail with rfl | hcj
        · exact Or.inl rfl
        · rcases ih c hcj with hsp | ⟨v', hv', hcv'⟩
          · exact Or.inl hsp
          · exact Or.inr ⟨v', List.mem_cons_of_mem w hv', hcv'⟩

theorem joinWords_head_mem (ws : List (List Char)) (h : ∀ w ∈ ws, w ≠ []) :
    ∀ c, (joinWords ws).head? = some c → ∃ w ∈ ws, c ∈ w := by
  cases ws with
  | nil => intro c hc; simp [joinWords] at hc
  | cons w ws =>
    intro c hc
    have hw := h w (List.mem_cons_self _ _)
    rcases hwc : w with _ | ⟨a, w'⟩
    · exact absurd hwc hw
    · subst hwc
      have hc' : a = c := by
        cases ws with
        | nil => simpa [joinWords] using hc
        | cons v ws' => simpa [joinWords, List.cons_append] using hc
      subst hc'
      exact ⟨a :: w', List.mem_cons_self _ _, List.mem_cons_self _ _⟩

theorem getLast?_append_right (l r : List Char) (h : r ≠ []) :
    (l ++ r).getLast? = r.getLast? := by
  rw [List.getLast?_append]
  have : r.getLast?.isSome := by
    rw [List.getLast?_isSome]
    exact h
  rcases hr : r.getLast? with _ | x
  · rw [hr] at this; simp at this
  · simp

theorem joinWords_getLast_mem (ws : List (List Char)) (h : ∀ w ∈ ws, w ≠ []) :
    ∀ c, (joinWords ws).getLast? = some c → ∃ w ∈ ws, c ∈ w := by
  induction ws with
  | nil => intro c hc; simp [joinWords] at hc
  | cons w ws ih =>
    intro c hc
    have hw := h w (List.mem_cons_self _ _)
    have hws := fun v hv => h v (List.mem_cons_of_mem w hv)
    cases ws with
    | nil =>
      simp only [joinWords] at hc
      exact ⟨w, List.mem_cons_self _ _, List.mem_of_mem_getLast? hc⟩
    | cons v ws' =>
      have hj : joinWords (w :: v :: ws') = w ++ ' ' :: joinWords (v :: ws') := by
        simp [joinWords]
      rw [hj] at hc
      have hjn : joinWords (v :: ws') ≠ [] :=
        joinWords_ne_nil v ws' (hws v (List.mem_cons_self _ _))
      rw [getLast?_append_right w (' ' :: joinWords (v :: ws')) (by simp)] at hc
      have : (' ' :: joinWords (v :: ws')).getLast? = (joinWords (v :: ws')).getLast? := by
        have : ' ' :: joinWords (v :: ws') = [' '] ++ joinWords (v :: ws') := by simp
        rw [this, getLast?_append_right [' '] _ hjn]
      rw [this] at hc
      obtain ⟨w', hw', hcw'⟩ := ih hws c hc
      exact ⟨w', List.mem_cons_of_mem w hw', hcw'⟩

theorem singleSpaced_of_no_space :
    ∀ w : List Char, (∀ c ∈ w, c ≠ ' ') → singleSpaced w = true := by
  intro w
  induction w with
  | nil => intro _; rfl
  | cons a w ih =>
    intro h
    cases w with
    | nil => rfl
    | cons b w' =>
      have ha : a ≠ ' ' := h a (List.mem_cons_self _ _)
      have hrest : singleSpaced (b :: w') = true :=
        ih (fun c hc => h c (List.mem_cons_of_mem a hc))
      simp [singleSpaced, hrest, ha]

theorem singleSpaced_append :
    ∀ l r : List Char, singleSpaced l = true → singleSpaced r = true →
      ((∀ c, l.getLast? = some c → c ≠ ' ') ∨ (∀ c, r.head? = some c → c ≠ ' ')) →
      singleSpaced (l ++ r) = true := by
  intro l
  induction l with
  | nil => intro r _ hr _; simpa using hr
  | cons a l ih =>
    intro r hl hr hd
    cases l with
    | nil =>
      cases r with
      | nil => rfl
      | cons b r' =>
        have hab : ¬(a = ' ' ∧ b = ' ') := by
          rcases hd with hleft | hright
          · intro ⟨ha, _⟩; exact hleft a rfl ha
          · intro ⟨_, hb⟩; exact hright b rfl hb
        have : ([a] ++ b :: r') = a :: b :: r' := by simp
        rw [this]
        simp only [singleSpaced, Bool.and_eq_true, Bool.not_eq_true']
        refine ⟨?_, hr⟩
        by_cases ha : a = ' '
        · by_cases hb : b = ' '
          · exact absurd ⟨ha, hb⟩ hab
          · simp [ha, hb]
        · simp [ha]
    | cons a' l' =>
      have hstep : singleSpaced (a :: a' :: l') = true → (!(a == ' ' && a' == ' ')) = true ∧
          singleSpaced (a' :: l') = true := by
        intro hss
        simpa [singleSpaced, Bool.and_eq_true] using hss
      obtain ⟨h1, h2⟩ := hstep hl
      have hd' : (∀ c, (a' :: l').getLast? = some c → c ≠ ' ') ∨
          (∀ c, r.head? = some c → c ≠ ' ') := by
        rcases hd with hleft | hright
        · left
          intro c hc
          apply hleft c
          rw [List.getLast?_cons_cons]
          exact hc
        · right; exact hright
      have hrec := ih r h2 hr hd'
      have : (a :: a' :: l') ++ r = a :: ((a' :: l') ++ r) := by simp
      rw [this]
      have hcons : (a' :: l') ++ r = a' :: (l' ++ r) := by simp
      rw [hcons] at hrec ⊢
      simp only [singleSpaced, Bool.and_eq_true]
      exact ⟨h1, hrec⟩

theorem joinWords_singleSpaced :
    ∀ ws : List (List Char), (∀ w ∈ ws, w ≠ [] ∧ ∀ c ∈ w, c ≠ ' ') →
      singleSpaced (joinWords ws) = true := by
  intro ws
  induction ws with
  | nil => intro _; rfl
  | cons w ws ih =>
    intro h
    have hw := h w (List.mem_cons_self _ _)
    have hws := fun v hv => h v (List.mem_cons_of_mem w hv)
    cases ws with
    | nil =>
      simpa [joinWords] using singleSpaced_of_no_space w hw.2
    | cons v ws' =>
      have hj : joinWords (w :: v :: ws') = w ++ ' ' :: joinWords (v :: ws') := by
        simp [joinWords]
      rw [hj]
      apply singleSpaced_append
      · exact singleSpaced_of_no_space w hw.2
      · -- singleSpaced on the separator plus the rest of the join
        have hJ : singleSpaced (joinWords (v :: ws')) = true := ih hws
        cases hJw : joinWords (v :: ws') with
        | nil => rfl
        | cons j J' =>
          have hjne : j ≠ ' ' := by
            have hhead : (joinWords (v :: ws')).head? = some j := by rw [hJw]; rfl
            obtain ⟨w', hw', hjw'⟩ := joinWords_head_mem (v :: ws')
              (fun x hx => (hws x hx).1) j hhead
            exact (hws w' hw').2 j hjw'
          rw [hJw] at hJ
          simp [singleSpaced, hjne, hJ]
      · left
        intro c hc
        exact hw.2 c (List.mem_of_mem_getLast? hc)

theorem flatMap_id_on (f : Char → List Char) :
    ∀ l : List Char, (∀ c ∈ l, f c = [c]) → l.flatMap f = l := by
  intro l
  induction l with
  | nil => intro _; rfl
  | cons a l ih =>
    intro h
    have := h a (List.mem_cons_self _ _)
    simp [List.flatMap_cons, this, ih (fun c hc => h c (List.mem_cons_of_mem a hc))]

theorem map_id_on (f : Char → Char) :
    ∀ l : List Char, (∀ c ∈ l, f c = c) → l.map f = l := by
  intro l
  induction l with
  | nil => intro _; rfl
  | cons a l ih =>
    intro h
    simp [h a (List.mem_cons_self _ _), ih (fun c hc => h c (List.mem_cons_of_mem a hc))]

theorem pyStrip_eq_self (isSp : Char → Bool) (l : List Char)
    (h1 : ∀ c, l.head? = some c → isSp c = false)
    (h2 : ∀ c, l.getLast? = some c → isSp c = false) :
    pyStrip isSp l = l := by
  cases l with
  | nil => rfl
  | cons a t =>
    have ha : isSp a = false := h1 a rfl
    unfold pyStrip
    rw [List.dropWhile_cons]
    simp only [ha, Bool.false_eq_true, if_false]
    rcases hrev : (a :: t).reverse with _ | ⟨b, rb⟩
    · exact absurd hrev (by simp)
    · have hb : (a :: t).getLast? = some b := by
        rw [← List.head?_reverse, hrev]; rfl
      have hbs : isSp b = false := h2 b hb
      rw [List.dropWhile_cons]
      simp only [hbs, Bool.false_eq_true, if_false]
      rw [← hrev, List.reverse_reverse]

/-- Claim C10: _normalize_text canonicalizes and is idempotent.  Under
the facts of the real Unicode tables on the allowed alphabet (the space
is whitespace, while lowercasing, NFD and the combining-mark test leave
lowercase letters, digits and the space unchanged), every output
consists only of the characters a-z, 0-9 and the space, with no two
adjacent spaces and no leading or trailing space, and normalizing a
second time changes nothing. -/
theorem normalize_text_canonical_idempotent (u : UnicodeModel)
    (hsp : u.isSpace ' ' = true)
    (hlow : ∀ c ∈ allowedChars, u.toLower c = [c])
    (hnfd : ∀ c ∈ allowedChars, u.nfd c = [c])
    (hmn : ∀ c ∈ allowedChars, u.isMn c = false)
    (s : String) :
    (∀ c ∈ (normalize_text u s).data, c ∈ allowedChars) ∧
      singleSpaced (normalize_text u s).data = true ∧
      (normalize_text u s).data.head? ≠ some ' ' ∧
      (normalize_text u s).data.getLast? ≠ some ' ' ∧
      normalize_text u (normalize_text u s) = normalize_text u s := by
  by_cases hnil : s.data = []
  · have hz : normalize_text u s = String.mk [] := by
      simp [normalize_text, normalizeChars, hnil]
    rw [hz]
    exact ⟨fun c hc => absurd hc (List.not_mem_nil c), rfl, by simp, by simp, rfl⟩
  · set s5 := ((((pyStrip u.isSpace s.data).flatMap u.toLower).flatMap u.nfd).filter
        (fun c => !u.isMn c)).map
        (fun c => if allowedChars.contains c then c else ' ') with hs5
    set ws := pyWords u.isSpace s5 with hws
    have hout : normalizeChars u s.data = joinWords ws := by
      rw [normalizeChars, if_neg hnil]
    have hdata : (normalize_text u s).data = joinWords ws := hout
    have hwf : ∀ w ∈ ws, w ≠ [] ∧ ∀ c ∈ w, u.isSpace c = false ∧ c ∈ s5 := by
      rw [hws]
      exact pyWords_wf u.isSpace s5
    have hwswf : ∀ w ∈ ws, w ≠ [] ∧ ∀ c ∈ w, u.isSpace c = false :=
      fun w hw => ⟨(hwf w hw).1, fun c hc => ((hwf w hw).2 c hc).1⟩
    have hnospace : ∀ w ∈ ws, w ≠ [] ∧ ∀ c ∈ w, c ≠ ' ' := by
      intro w hw
      refine ⟨(hwf w hw).1, fun c hc hceq => ?_⟩
      have := ((hwf w hw).2 c hc).1
      rw [hceq, hsp] at this
      simp at this
    have hallow : ∀ c ∈ s5, c ∈ allowedChars := by
      intro c hc
      rw [hs5] at hc
      obtain ⟨d, _, rfl⟩ := List.mem_map.mp hc
      by_cases hd : allowedChars.contains d
      · rw [if_pos hd]
        exact List.mem_of_elem_eq_true hd
      · rw [if_neg hd]
        decide
    have hjoin_allow : ∀ c ∈ joinWords ws, c ∈ allowedChars := by
      intro c hc
      rcases joinWords_chars ws c hc with rfl | ⟨w, hw, hcw⟩
      · decide
      · exact hallow c ((hwf w hw).2 c hcw).2
    refine ⟨?_, ?_, ?_, ?_, ?_⟩
    · intro c hc
      rw [hdata] at hc
      exact hjoin_allow c hc
    · rw [hdata]
      exact joinWords_singleSpaced ws hnospace
    · rw [hdata]
      intro hcon
      obtain ⟨w, hw, hcw⟩ :=
        joinWords_head_mem ws (fun w hw => (hnospace w hw).1) ' ' hcon
      exact (hnospace w hw).2 ' ' hcw rfl
    · rw [hdata]
      intro hcon
      obtain ⟨w, hw, hcw⟩ :=
        joinWords_getLast_mem ws (fun w hw => (hnospace w hw).1) ' ' hcon
      exact (hnospace w hw).2 ' ' hcw rfl
    · have hfix : normalizeChars u (joinWords ws) = joinWords ws := by
        by_cases hjw : joinWords ws = []
        · rw [hjw]; rfl
        · rw [normalizeChars, if_neg hjw]
          have hstrip : pyStrip u.isSpace (joinWords ws) = joinWords ws := by
            apply pyStrip_eq_self
            · intro c hc
              obtain ⟨w, hw, hcw⟩ :=
                joinWords_head_mem ws (fun w hw => (hnospace w hw).1) c hc
              exact (hwswf w hw).2 c hcw
            · intro c hc
              obtain ⟨w, hw, hcw⟩ :=
                joinWords_getLast_mem ws (fun w hw => (hnospace w hw).1) c hc
              exact (hwswf w hw).2 c hcw
          have hlow' : (joinWords ws).flatMap u.toLower = joinWords ws :=
            flatMap_id_on _ _ (fun c hc => hlow c (hjoin_allow c hc))
          have hnfd' : (joinWords ws).flatMap u.nfd = joinWords ws :=
            flatMap_id_on _ _ (fun c hc => hnfd c (hjoin_allow c hc))
          have hfil : (joinWords ws).filter (fun c => !u.isMn c) = joinWords ws :=
            List.filter_eq_self.mpr (fun c hc => by rw [hmn c (hjoin_allow c hc)]; rfl)
          have hmap : (joinWords ws).map
              (fun c => if allowedChars.contains c then c else ' ') = joinWords ws := by
            apply map_id_on
            intro c hc
            rw [if_pos (List.elem_eq_true_of_mem (hjoin_allow c hc))]
          have hround : pyWords u.isSpace (joinWords ws) = ws :=
            pyWords_roundtrip u.isSpace hsp ws hwswf
          show joinWords (pyWords u.isSpace (List.map
            (fun c => if allowedChars.contains c then c else ' ')
            (List.filter (fun c => !u.isMn c)
              (List.flatMap (List.flatMap (pyStrip u.isSpace (joinWords ws))
                u.toLower) u.nfd)))) = joinWords ws
          rw [hstrip, hlow', hnfd', hfil, hmap, hround]
      show normalize_text u (normalize_text u s) = normalize_text u s
      simp only [normalize_text]
      rw [hout, hfix]

set_option maxHeartbeats 1000000 in
/-- Witness for claim C10: a concrete messy string under the concrete
ASCII-faithful Unicode model normalizes to a canonical form and is a
fixed point of a second normalization. -/
theorem normalize_text_canonical_idempotent_witness :
    (∀ c ∈ (normalize_text uASCII " Ab  3 !x ").data, c ∈ allowedChars) ∧
      singleSpaced (normalize_text uASCII " Ab  3 !x ").data = true ∧
      (normalize_text uASCII " Ab  3 !x ").data.head? ≠ some ' ' ∧
      (normalize_text uASCII " Ab  3 !x ").data.getLast? ≠ some ' ' ∧
      normalize_text uASCII (normalize_text uASCII " Ab  3 !x ") =
        normalize_text uASCII " Ab  3 !x " :=
  normalize_text_canonical_idempotent uASCII (by decide) (by decide) (by decide)
    (by decide) " Ab  3 !x "
